import Mathlib

/-!
Verification of the whole-slide-image preprocessing module (src/wsi/slide.py).

The Python module is shallowly embedded: pure string/path construction becomes Lean
string functions, the regular-expression based filename decoder becomes an explicit
greedy backtracking matcher, Python `/` on floats is modelled as exact rational
division, `int()` as truncation toward zero, `round()` as round-half-to-even, and
fallible operations (slide opening, division by zero, failed pattern match) return
`Option`/`Except`.
-/

/-- `os.sep`, modelled for a POSIX host. -/
def os_sep : String := "/"

/-- slide.py:36 `BASE_DIR = ".." + os.sep + "data"`. -/
def BASE_DIR : String := ".." ++ os_sep ++ "data"

/-- slide.py:38. -/
def TRAIN_PREFIX : String := "TUPAC-TR-"

/-- slide.py:39. -/
def SRC_TRAIN_DIR : String := BASE_DIR ++ os_sep ++ "training_slides"

/-- slide.py:40. -/
def SRC_TRAIN_EXT : String := "svs"

/-- slide.py:41. -/
def DEST_TRAIN_SUFFIX : String := ""

/-- slide.py:42. -/
def DEST_TRAIN_EXT : String := "png"

/-- slide.py:43. -/
def SCALE_FACTOR : ℕ := 32

/-- slide.py:44. -/
def DEST_TRAIN_DIR : String := BASE_DIR ++ os_sep ++ "training_" ++ DEST_TRAIN_EXT

/-- slide.py:45. -/
def THUMBNAIL_SIZE : ℕ := 300

/-- slide.py:46. -/
def THUMBNAIL_EXT : String := "jpg"

/-- slide.py:48. -/
def DEST_TRAIN_THUMBNAIL_DIR : String :=
  BASE_DIR ++ os_sep ++ "training_thumbnail_" ++ THUMBNAIL_EXT

/-- slide.py:50. -/
def FILTER_SUFFIX : String := ""

/-- slide.py:51. -/
def FILTER_RESULT_TEXT : String := "filtered"

/-- slide.py:52. -/
def FILTER_DIR : String := BASE_DIR ++ os_sep ++ "filter_" ++ DEST_TRAIN_EXT

/-- Python `str.zfill` on the unsigned decimal strings used in slide.py: left-pad
with '0' to the given width (sign handling is irrelevant for these inputs). -/
def zfill (s : String) (width : ℕ) : String :=
  ⟨List.replicate (width - s.length) '0' ++ s.data⟩

/-- `get_training_slide_path` (slide.py:103-118): slide number to source slide path. -/
def get_training_slide_path (slide_number : ℕ) : String :=
  SRC_TRAIN_DIR ++ os_sep ++ TRAIN_PREFIX ++ zfill (Nat.repr slide_number) 3 ++ "." ++
    SRC_TRAIN_EXT

/-- `get_training_image_path` (slide.py:121-147), in the branch where all four
dimensions are supplied (the other branch performs a filesystem glob, which is I/O
outside the pure model). -/
def get_training_image_path (slide_number large_w large_h small_w small_h : ℕ) : String :=
  DEST_TRAIN_DIR ++ os_sep ++ TRAIN_PREFIX ++ zfill (Nat.repr slide_number) 3 ++ "-" ++
    Nat.repr SCALE_FACTOR ++ "x-" ++ DEST_TRAIN_SUFFIX ++ Nat.repr large_w ++ "x" ++
    Nat.repr large_h ++ "-" ++ Nat.repr small_w ++ "x" ++ Nat.repr small_h ++ "." ++
    DEST_TRAIN_EXT

/-- `get_training_thumbnail_path` (slide.py:150-176), dimensions-supplied branch. -/
def get_training_thumbnail_path (slide_number large_w large_h small_w small_h : ℕ) : String :=
  DEST_TRAIN_THUMBNAIL_DIR ++ os_sep ++ TRAIN_PREFIX ++ zfill (Nat.repr slide_number) 3 ++
    "-" ++ Nat.repr SCALE_FACTOR ++ "x-" ++ DEST_TRAIN_SUFFIX ++ Nat.repr large_w ++ "x" ++
    Nat.repr large_h ++ "-" ++ Nat.repr small_w ++ "x" ++ Nat.repr small_h ++ "." ++
    THUMBNAIL_EXT

/-- `get_filter_image_result` (slide.py:356-375). In the source the four dimension
values are the strings obtained by parsing the training image filename (looked up by
glob, which is I/O); they are taken here as string parameters and spliced into the
name exactly as the source's `str()` calls do. -/
def get_filter_image_result (slide_number : ℕ)
    (large_w large_h small_w small_h : String) : String :=
  FILTER_DIR ++ os_sep ++ TRAIN_PREFIX ++ zfill (Nat.repr slide_number) 3 ++ "-" ++
    Nat.repr SCALE_FACTOR ++ "x-" ++ FILTER_SUFFIX ++ large_w ++ "x" ++ large_h ++ "-" ++
    small_w ++ "x" ++ small_h ++ "-" ++ FILTER_RESULT_TEXT ++ "." ++ DEST_TRAIN_EXT

/-! ### The regular expression `.*-(.*)x(.*)-(.*)x(.*)\..*`

`parse_dimensions_from_training_image_filename` (slide.py:400-415) runs
`re.match(".*-(.*)x(.*)-(.*)x(.*)\..*", filename)`.  Python's engine matches
anchored at the start, unanchored at the end, with greedy backtracking: each `.*`
first consumes as much as possible (any character except a newline) and backtracks
on failure; the first overall success is returned.  The final `.*` constrains
nothing, so a match is complete as soon as the literal dot after the fourth group
is found.  `splits` enumerates the candidate (consumed, rest) pairs of one `.*` in
the engine's greedy order (longest consumed first); `starMatch` runs a continuation over
them, and `K0`-`K4` are the continuations for the successive pattern positions. -/

/-- What `.` matches in a Python regex without `re.DOTALL`: any character except a
newline. -/
def dotMatch (c : Char) : Bool := c != '\n'

/-- First success of `f` over a list of candidates, in order. -/
def firstSome {α β : Type} (f : α → Option β) : List α → Option β
  | [] => none
  | a :: as =>
    match f a with
    | some b => some b
    | none => firstSome f as

/-- All ways for `.*` to split the input into (consumed, rest), longest consumed
first, consuming only characters matched by `.`. -/
def splits : List Char → List (List Char × List Char)
  | [] => [([], [])]
  | c :: cs =>
    if dotMatch c then
      (splits cs).map (fun p => (c :: p.1, p.2)) ++ [([], c :: cs)]
    else
      [([], c :: cs)]

/-- Run `.*` then the continuation `k consumed rest`, in greedy order. -/
def starMatch {β : Type} (k : List Char → List Char → Option β) (cs : List Char) : Option β :=
  firstSome (fun p => k p.1 p.2) (splits cs)

/-- The four captured groups of the dimension regex. -/
abbrev Caps := List Char × List Char × List Char × List Char

/-- Pattern position after `...x(.*` : group 4 runs until the literal `\.`; the
trailing `.*` always matches, so finding the dot completes the match. -/
def K4 (g1 g2 g3 g4 r : List Char) : Option Caps :=
  match r with
  | [] => none
  | a :: _ => if a = '.' then some (g1, g2, g3, g4) else none

/-- Pattern position after `-(.*` of group 3: literal `x`, then group 4. -/
def K3 (g1 g2 g3 r : List Char) : Option Caps :=
  match r with
  | [] => none
  | a :: r8 => if a = 'x' then starMatch (K4 g1 g2 g3) r8 else none

/-- Pattern position after `x(.*` of group 2: literal `-`, then group 3. -/
def K2 (g1 g2 r : List Char) : Option Caps :=
  match r with
  | [] => none
  | a :: r6 => if a = '-' then starMatch (K3 g1 g2) r6 else none

/-- Pattern position after `-(.*` of group 1: literal `x`, then group 2. -/
def K1 (g1 r : List Char) : Option Caps :=
  match r with
  | [] => none
  | a :: r4 => if a = 'x' then starMatch (K2 g1) r4 else none

/-- Pattern position after the leading `.*`: literal `-`, then group 1.  The
leading `.*` captures nothing, so the consumed part is ignored. -/
def K0 (_g r : List Char) : Option Caps :=
  match r with
  | [] => none
  | a :: r2 => if a = '-' then starMatch K1 r2 else none

/-- The full match of `.*-(.*)x(.*)-(.*)x(.*)\..*` against a character list. -/
def parseDims (cs : List Char) : Option Caps := starMatch K0 cs

/-- `parse_dimensions_from_training_image_filename` (slide.py:400-415).  Returns the
four captured substrings (the source returns them un-converted as strings); the
`AttributeError` raised on `m.group` when the match fails is modelled as `none`. -/
def parse_dimensions_from_training_image_filename (filename : String) :
    Option (String × String × String × String) :=
  match parseDims filename.data with
  | some (a, b, c, d) => some (⟨a⟩, ⟨b⟩, ⟨c⟩, ⟨d⟩)
  | none => none

/-! ### Work partitioning -/

/-- Python `int()` applied to a (nonnegative or negative) rational: truncation
toward zero. -/
def pyInt (q : ℚ) : ℤ := q.num.tdiv (q.den : ℤ)

/-- The spec-side idealization of the task-range computation of
`multiprocess_training_slides_to_images` (slide.py:528-546): the pool size is
capped at the image count, each worker `i` (1-based) gets the inclusive range
`int((i-1)*images_per_process + 1) .. int(i*images_per_process)` — with
`images_per_process = total / effective_workers` carried out in EXACT rational
arithmetic.  This is the real-valued chunk formula the spec describes; it is NOT
the binary64 semantics of the Python source, which rounds every float operation
to 53 bits.  `multiprocess_tasks_float` below is the faithful model of the
program; the two coincide precisely at inputs where every float operation is
exact (e.g. `total = 5`, `workers = 2`, where all intermediate values are small
dyadic rationals — see `multiprocess_tasks_float_five_two`), and differ at
inputs such as `total = 61`, `workers = 7` where rounding shifts an `int()`
truncation. -/
def multiprocess_tasks (num_train_images workers : ℕ) : List (ℤ × ℤ) :=
  let num_processes := if workers > num_train_images then num_train_images else workers
  let images_per_process : ℚ := (num_train_images : ℚ) / (num_processes : ℚ)
  (List.range num_processes).map fun k =>
    let num_process : ℕ := k + 1
    let start_index := pyInt (((num_process : ℚ) - 1) * images_per_process + 1)
    let end_index := pyInt ((num_process : ℚ) * images_per_process)
    (start_index, end_index)

/-! ### Coordinate mapping -/

/-- Python `round()` on a rational: nearest integer, ties to even. -/
def pyRound (q : ℚ) : ℤ :=
  if q - ⌊q⌋ < 1 / 2 then ⌊q⌋
  else if 1 / 2 < q - ⌊q⌋ then ⌊q⌋ + 1
  else if Even ⌊q⌋ then ⌊q⌋ else ⌊q⌋ + 1

/-- `small_to_large_mapping` (slide.py:418-433).  Python float arithmetic is
modelled as exact rational arithmetic and `math.floor` as the rational floor; the
`ZeroDivisionError` raised when a floored divisor is zero is modelled as `none`. -/
def small_to_large_mapping (small_pixel : ℤ × ℤ) (large_dimensions : ℕ × ℕ) :
    Option (ℤ × ℤ) :=
  let small_x := small_pixel.1
  let small_y := small_pixel.2
  let large_w := large_dimensions.1
  let large_h := large_dimensions.2
  let fw : ℤ := ⌊(large_w : ℚ) / (SCALE_FACTOR : ℚ)⌋
  let fh : ℤ := ⌊(large_h : ℚ) / (SCALE_FACTOR : ℚ)⌋
  if fw = 0 ∨ fh = 0 then none
  else
    some
      (pyRound ((large_w : ℚ) / (SCALE_FACTOR : ℚ) / (fw : ℚ) *
          ((SCALE_FACTOR : ℚ) * (small_x : ℚ))),
       pyRound ((large_h : ℚ) / (SCALE_FACTOR : ℚ) / (fh : ℚ) *
          ((SCALE_FACTOR : ℚ) * (small_y : ℚ))))

/-! ### Slide access and the conversion pipeline -/

/-- A slide resource, abstracted to the data the path/dimension claims depend on:
its native dimensions.  Pixel contents, pyramid levels and the image operations on
them (read_region, convert, resize, save) do not influence the computed names. -/
structure SlideModel where
  width : ℕ
  height : ℕ

/-- Outcome of `openslide.open_slide` on a path: an opened slide, an
`OpenSlideError` (codec rejects the file), or a `FileNotFoundError`. -/
inductive OpenOutcome where
  | opened (slide : SlideModel)
  | openSlideError
  | fileNotFound

/-- `open_slide` (slide.py:70-86): both exception kinds are caught and collapsed to
`None`, modelled as `none`.  `fs` abstracts the filesystem/codec state. -/
def open_slide (fs : String → OpenOutcome) (filename : String) : Option SlideModel :=
  match fs filename with
  | OpenOutcome.opened s => some s
  | OpenOutcome.openSlideError => none
  | OpenOutcome.fileNotFound => none

/-- The single failure kind of the conversion pipeline: `open_slide` returned
`None`, and the subsequent attribute access on the `None` handle raises.  Both open
failure causes collapse to this one kind. -/
inductive PipelineError where
  | slideOpenError

/-- `training_slide_to_image` (slide.py:436-468), abstracted to its observable
name/dimension flow: open the slide, floor-divide the native dimensions by
`SCALE_FACTOR` (`math.floor(large_w / 32)` equals natural division by 32), build
the artifact and thumbnail paths with those values, and report the resized image
dimensions.  Failure to open fails the conversion. -/
def training_slide_to_image (fs : String → OpenOutcome) (slide_number : ℕ) :
    Except PipelineError (String × String × (ℕ × ℕ)) :=
  let slide_filepath := get_training_slide_path slide_number
  match open_slide fs slide_filepath with
  | none => Except.error PipelineError.slideOpenError
  | some slide =>
    let large_w := slide.width
    let large_h := slide.height
    let new_w := large_w / SCALE_FACTOR
    let new_h := large_h / SCALE_FACTOR
    let img_path := get_training_image_path slide_number large_w large_h new_w new_h
    let thumbnail_path :=
      get_training_thumbnail_path slide_number large_w large_h new_w new_h
    Except.ok (img_path, thumbnail_path, (new_w, new_h))

/-! ### Partition proofs -/

/-- The cumulative boundary `⌊i·T/ew⌋` after the first `i` of `ew` workers. -/
def chunkFloor (T ew i : ℕ) : ℤ := ⌊((i : ℚ) * (T : ℚ)) / (ew : ℚ)⌋

theorem pyInt_eq_floor (q : ℚ) (h : 0 ≤ q) : pyInt q = ⌊q⌋ := by
  obtain ⟨m, hm⟩ : ∃ m : ℕ, q.num = (m : ℤ) :=
    ⟨q.num.toNat, (Int.toNat_of_nonneg (Rat.num_nonneg.mpr h)).symm⟩
  simp only [pyInt, Rat.floor_def, hm]
  rw [← Int.ofNat_tdiv, Int.ofNat_ediv]

theorem chunkFloor_zero (T ew : ℕ) : chunkFloor T ew 0 = 0 := by
  simp [chunkFloor]

theorem chunkFloor_self (T ew : ℕ) (hew : 1 ≤ ew) : chunkFloor T ew ew = (T : ℤ) := by
  have h0 : ((ew : ℚ)) ≠ 0 := Nat.cast_ne_zero.mpr (by omega)
  rw [chunkFloor, mul_comm, mul_div_assoc, div_self h0, mul_one, Int.floor_natCast]

theorem chunkFloor_mono (T ew : ℕ) (hew : 1 ≤ ew) {i j : ℕ} (hij : i ≤ j) :
    chunkFloor T ew i ≤ chunkFloor T ew j := by
  have hc : (0 : ℚ) < (ew : ℚ) := by exact_mod_cast hew
  refine Int.floor_le_floor ?_
  exact (div_le_div_iff_of_pos_right hc).mpr
    (mul_le_mul_of_nonneg_right (by exact_mod_cast hij) (by positivity))

theorem chunkFloor_step (T ew : ℕ) (hew : 1 ≤ ew) (hT : ew ≤ T) (i : ℕ) :
    chunkFloor T ew i + 1 ≤ chunkFloor T ew (i + 1) := by
  have hc : (0 : ℚ) < (ew : ℚ) := by exact_mod_cast hew
  have h1 : (1 : ℚ) ≤ (T : ℚ) / (ew : ℚ) := (one_le_div hc).mpr (by exact_mod_cast hT)
  have hfl : ((chunkFloor T ew i : ℤ) : ℚ) ≤ ((i : ℚ) * T) / ew := Int.floor_le _
  have e1 : ((i + 1 : ℕ) : ℚ) * T / ew = (i : ℚ) * T / ew + T / ew := by push_cast; ring
  have key : ((chunkFloor T ew i + 1 : ℤ) : ℚ) ≤ ((i + 1 : ℕ) : ℚ) * T / ew := by
    rw [e1]
    push_cast
    linarith
  exact Int.le_floor.mpr key

theorem multiprocess_tasks_eq (T W : ℕ) (hT : 1 ≤ T) (hW : 1 ≤ W) :
    multiprocess_tasks T W =
      (List.range (min W T)).map
        (fun k => (chunkFloor T (min W T) k + 1, chunkFloor T (min W T) (k + 1))) := by
  have hewe : (if W > T then T else W) = min W T := by
    split_ifs with h <;> omega
  simp only [multiprocess_tasks, hewe]
  refine List.map_congr_left ?_
  intro k _
  have e1 : ((k + 1 : ℕ) : ℚ) - 1 = (k : ℚ) := by push_cast; ring
  simp only [Prod.mk.injEq]
  refine ⟨?_, ?_⟩
  · rw [e1, pyInt_eq_floor _ (by positivity), Int.floor_add_one, ← mul_div_assoc]
    rfl
  · rw [pyInt_eq_floor _ (by positivity), ← mul_div_assoc]
    rfl

theorem exists_chunk_index (T ew : ℕ) (n : ℕ) :
    ∀ m : ℤ, 0 < m → m ≤ chunkFloor T ew n →
      ∃ k, k < n ∧ chunkFloor T ew k < m ∧ m ≤ chunkFloor T ew (k + 1) := by
  induction n with
  | zero =>
    intro m hm h0
    rw [chunkFloor_zero] at h0
    omega
  | succ n ih =>
    intro m hm hle
    by_cases h : m ≤ chunkFloor T ew n
    · obtain ⟨k, hk, hlt, hub⟩ := ih m hm h
      exact ⟨k, Nat.lt_succ_of_lt hk, hlt, hub⟩
    · exact ⟨n, Nat.lt_succ_self n, by omega, hle⟩

/-- Claim C2 (amended): for every `total ∈ [1,1000]` and `workers ∈ [1,64]`, the
ranges of the EXACT-rational partition formula (`start = int((i-1)*total/
effective_workers + 1)`, `end = int(i*total/effective_workers)` for
`i = 1..effective_workers`, `effective_workers = min(workers, total)`) are
pairwise disjoint, sorted in increasing order, their union is exactly
`{1,...,total}`, and the number of ranges equals `min(workers, total)`.  The
claim as stated is FALSE of the program, whose binary64 arithmetic breaks
coverage inside the claimed range: see `multiprocess_tasks_float_uncovered`. -/
theorem multiprocess_tasks_coverage (total workers : ℕ)
    (h1 : 1 ≤ total) (h2 : total ≤ 1000) (h3 : 1 ≤ workers) (h4 : workers ≤ 64) :
    (multiprocess_tasks total workers).length = min workers total ∧
    (multiprocess_tasks total workers).Pairwise (fun r s => r.2 < s.1) ∧
    (∀ r ∈ multiprocess_tasks total workers, r.1 ≤ r.2) ∧
    (∀ m : ℤ, (∃ r ∈ multiprocess_tasks total workers, r.1 ≤ m ∧ m ≤ r.2) ↔
      1 ≤ m ∧ m ≤ (total : ℤ)) := by
  have hew1 : 1 ≤ min workers total := le_min h3 h1
  have hewT : min workers total ≤ total := min_le_right _ _
  have heq := multiprocess_tasks_eq total workers h1 h3
  refine ⟨?_, ?_, ?_, ?_⟩
  · rw [heq, List.length_map, List.length_range]
  · rw [heq, List.pairwise_map]
    refine (List.pairwise_lt_range _).imp ?_
    intro a b hab
    have hstep : chunkFloor total (min workers total) (a + 1) ≤
        chunkFloor total (min workers total) b :=
      chunkFloor_mono _ _ hew1 hab
    dsimp only
    omega
  · rw [heq]
    intro r hr
    obtain ⟨k, hkmem, rfl⟩ := List.mem_map.mp hr
    have hstep := chunkFloor_step total (min workers total) hew1 hewT k
    dsimp only
    omega
  · intro m
    constructor
    · rintro ⟨r, hr, hm1, hm2⟩
      rw [heq] at hr
      obtain ⟨k, hkmem, rfl⟩ := List.mem_map.mp hr
      have hk : k + 1 ≤ min workers total := List.mem_range.mp hkmem
      have l1 : chunkFloor total (min workers total) 0 ≤
          chunkFloor total (min workers total) k := chunkFloor_mono _ _ hew1 (Nat.zero_le k)
      have l2 : chunkFloor total (min workers total) (k + 1) ≤
          chunkFloor total (min workers total) (min workers total) :=
        chunkFloor_mono _ _ hew1 hk
      rw [chunkFloor_zero] at l1
      rw [chunkFloor_self _ _ hew1] at l2
      dsimp only at hm1 hm2
      omega
    · rintro ⟨hm1, hm2⟩
      have hmle : m ≤ chunkFloor total (min workers total) (min workers total) := by
        rw [chunkFloor_self _ _ hew1]
        exact hm2
      obtain ⟨k, hk, hlt, hle⟩ :=
        exists_chunk_index total (min workers total) (min workers total) m (by omega) hmle
      refine ⟨(chunkFloor total (min workers total) k + 1,
        chunkFloor total (min workers total) (k + 1)), ?_, by omega, hle⟩
      rw [heq]
      exact List.mem_map.mpr ⟨k, List.mem_range.mpr hk, rfl⟩

/-- Witness for claim C2 at `total = 5`, `workers = 2`. -/
theorem multiprocess_tasks_coverage_witness :
    (multiprocess_tasks 5 2).length = min 2 5 ∧
    (multiprocess_tasks 5 2).Pairwise (fun r s => r.2 < s.1) ∧
    (∀ r ∈ multiprocess_tasks 5 2, r.1 ≤ r.2) ∧
    (∀ m : ℤ, (∃ r ∈ multiprocess_tasks 5 2, r.1 ≤ m ∧ m ≤ r.2) ↔
      1 ≤ m ∧ m ≤ (5 : ℤ)) :=
  multiprocess_tasks_coverage 5 2 (by decide) (by decide) (by decide) (by decide)

/-- Claim C3 counterexample: the code's partition of 5 slides over 2 workers is not
`[(1,3),(4,5)]` (Python computes `int(1*2.5) = 2` for the first range end). -/
theorem multiprocess_tasks_five_two_ne : multiprocess_tasks 5 2 ≠ [(1, 3), (4, 5)] := by
  rw [multiprocess_tasks_eq 5 2 (by norm_num) (by norm_num)]
  have h2 : (min 2 5 : ℕ) = 2 := by norm_num
  rw [h2, show List.range 2 = [0, 1] from rfl]
  simp only [List.map_cons, List.map_nil]
  norm_num [chunkFloor]

/-- Claim C3 (amended): partitioning 5 slides across 2 workers with the code's
formula yields exactly the plan `[(1,2),(3,5)]`. -/
theorem multiprocess_tasks_five_two : multiprocess_tasks 5 2 = [(1, 2), (3, 5)] := by
  rw [multiprocess_tasks_eq 5 2 (by norm_num) (by norm_num)]
  have h2 : (min 2 5 : ℕ) = 2 := by norm_num
  rw [h2, show List.range 2 = [0, 1] from rfl]
  simp only [List.map_cons, List.map_nil]
  norm_num [chunkFloor]

/-- For every `total ∈ [1,1000]` and `workers ∈ [1,64]`, no two ranges in the
plan produced by the EXACT-rational partition formula differ in length
(`end - start + 1`) by more than 1.  This concerns the idealized
`multiprocess_tasks`, not the program's binary64 plans (which differ from it at
some in-range inputs, e.g. `(61,7)`); it does not by itself establish fairness
of the program. -/
theorem multiprocess_tasks_fairness (total workers : ℕ)
    (h1 : 1 ≤ total) (h2 : total ≤ 1000) (h3 : 1 ≤ workers) (h4 : workers ≤ 64) :
    ∀ r ∈ multiprocess_tasks total workers, ∀ s ∈ multiprocess_tasks total workers,
      (r.2 - r.1 + 1) - (s.2 - s.1 + 1) ≤ 1 := by
  have hew1 : 1 ≤ min workers total := le_min h3 h1
  rw [multiprocess_tasks_eq total workers h1 h3]
  intro r hr s hs
  obtain ⟨j, hj, rfl⟩ := List.mem_map.mp hr
  obtain ⟨l, hl, rfl⟩ := List.mem_map.mp hs
  have A : ∀ i : ℕ, ((chunkFloor total (min workers total) i : ℤ) : ℚ) ≤
      (i : ℚ) * total / ((min workers total : ℕ) : ℚ) := fun i => Int.floor_le _
  have B : ∀ i : ℕ, (i : ℚ) * total / ((min workers total : ℕ) : ℚ) - 1 <
      ((chunkFloor total (min workers total) i : ℤ) : ℚ) := fun i => Int.sub_one_lt_floor _
  have key : (chunkFloor total (min workers total) (j + 1) -
      chunkFloor total (min workers total) j) -
      (chunkFloor total (min workers total) (l + 1) -
      chunkFloor total (min workers total) l) < 2 := by
    have hq : (((chunkFloor total (min workers total) (j + 1) -
        chunkFloor total (min workers total) j) -
        (chunkFloor total (min workers total) (l + 1) -
        chunkFloor total (min workers total) l) : ℤ) : ℚ) < 2 := by
      have Aj := A (j + 1)
      have Bj := B j
      have Al := A l
      have Bl := B (l + 1)
      have ej : ((j + 1 : ℕ) : ℚ) * total / ((min workers total : ℕ) : ℚ) =
          (j : ℚ) * total / ((min workers total : ℕ) : ℚ) +
          (total : ℚ) / ((min workers total : ℕ) : ℚ) := by push_cast; ring
      have el : ((l + 1 : ℕ) : ℚ) * total / ((min workers total : ℕ) : ℚ) =
          (l : ℚ) * total / ((min workers total : ℕ) : ℚ) +
          (total : ℚ) / ((min workers total : ℕ) : ℚ) := by push_cast; ring
      rw [ej] at Aj
      rw [el] at Bl
      push_cast
      linarith
    exact_mod_cast hq
  dsimp only
  omega

/-- Instance of the fairness lemma at `total = 7`, `workers = 3`, comparing the
first and last ranges of the exact-formula plan `[(1,2),(3,4),(5,7)]`. -/
theorem multiprocess_tasks_fairness_witness :
    (((1, 2) : ℤ × ℤ).2 - ((1, 2) : ℤ × ℤ).1 + 1) -
      (((5, 7) : ℤ × ℤ).2 - ((5, 7) : ℤ × ℤ).1 + 1) ≤ 1 := by
  have hplan : multiprocess_tasks 7 3 = [(1, 2), (3, 4), (5, 7)] := by
    rw [multiprocess_tasks_eq 7 3 (by norm_num) (by norm_num)]
    have h3 : (min 3 7 : ℕ) = 3 := by norm_num
    rw [h3, show List.range 3 = [0, 1, 2] from rfl]
    simp only [List.map_cons, List.map_nil]
    norm_num [chunkFloor]
  exact multiprocess_tasks_fairness 7 3 (by norm_num) (by norm_num) (by norm_num)
    (by norm_num) (1, 2) (by rw [hplan]; simp) (5, 7) (by rw [hplan]; simp)

/-! ### Coordinate mapper proofs -/

theorem pyRound_intCast (z : ℤ) : pyRound ((z : ℤ) : ℚ) = z := by
  simp [pyRound, Int.floor_intCast]

theorem pyRound_natCast (n : ℕ) : pyRound ((n : ℕ) : ℚ) = (n : ℤ) := by
  have h : ((n : ℕ) : ℚ) = (((n : ℤ) : ℤ) : ℚ) := by push_cast; ring
  rw [h, pyRound_intCast]

theorem floor_div_scale (n : ℕ) :
    ⌊(n : ℚ) / (SCALE_FACTOR : ℚ)⌋ = ((n / SCALE_FACTOR : ℕ) : ℤ) := by
  rw [Rat.floor_natCast_div_natCast, ← Int.ofNat_ediv]

/-- The coordinate mapper sends the maximal small-image corner back to the exact
large dimensions (the floored divisor cancels exactly in rational arithmetic). -/
theorem small_to_large_mapping_corner_exact (lw lh : ℕ)
    (hw : SCALE_FACTOR ≤ lw) (hh : SCALE_FACTOR ≤ lh) :
    small_to_large_mapping (((lw / SCALE_FACTOR : ℕ) : ℤ), ((lh / SCALE_FACTOR : ℕ) : ℤ))
      (lw, lh) = some ((lw : ℤ), (lh : ℤ)) := by
  have hsf : (0 : ℕ) < SCALE_FACTOR := by norm_num [SCALE_FACTOR]
  have hwpos : 0 < lw / SCALE_FACTOR := Nat.div_pos hw hsf
  have hhpos : 0 < lh / SCALE_FACTOR := Nat.div_pos hh hsf
  have hnew : ((lw / SCALE_FACTOR : ℕ) : ℤ) ≠ 0 := by exact_mod_cast hwpos.ne'
  have hneh : ((lh / SCALE_FACTOR : ℕ) : ℤ) ≠ 0 := by exact_mod_cast hhpos.ne'
  have hqw : ((((lw / SCALE_FACTOR : ℕ) : ℤ)) : ℚ) ≠ 0 := by exact_mod_cast hnew
  have hqh : ((((lh / SCALE_FACTOR : ℕ) : ℤ)) : ℚ) ≠ 0 := by exact_mod_cast hneh
  have h32 : ((SCALE_FACTOR : ℕ) : ℚ) ≠ 0 := by norm_num [SCALE_FACTOR]
  simp only [small_to_large_mapping, floor_div_scale]
  rw [if_neg (by push_neg; exact ⟨hnew, hneh⟩)]
  have cancel : ∀ L a b : ℚ, a ≠ 0 → b ≠ 0 → L / b / a * (b * a) = L := by
    intro L a b ha hb
    field_simp
  have ew : (lw : ℚ) / (SCALE_FACTOR : ℚ) / ((((lw / SCALE_FACTOR : ℕ) : ℤ)) : ℚ) *
      ((SCALE_FACTOR : ℚ) * ((((lw / SCALE_FACTOR : ℕ) : ℤ)) : ℚ)) = ((lw : ℕ) : ℚ) :=
    cancel _ _ _ hqw h32
  have eh : (lh : ℚ) / (SCALE_FACTOR : ℚ) / ((((lh / SCALE_FACTOR : ℕ) : ℤ)) : ℚ) *
      ((SCALE_FACTOR : ℚ) * ((((lh / SCALE_FACTOR : ℕ) : ℤ)) : ℚ)) = ((lh : ℕ) : ℚ) :=
    cancel _ _ _ hqh h32
  rw [ew, eh, pyRound_natCast, pyRound_natCast]

/-- Claim C5: for large dimensions `(large_w, large_h)` with both at least
`SCALE_FACTOR`, `small_to_large_mapping` applied to the maximal small-image corner
`(⌊large_w/SCALE_FACTOR⌋, ⌊large_h/SCALE_FACTOR⌋)` lands within 1 pixel of
`(large_w, large_h)` in each axis; in particular with `large = (49920, 108288)` and
`SCALE_FACTOR = 32`, mapping `(1560, 3384)` back yields `(49920, 108288)` exactly. -/
theorem small_to_large_mapping_boundary (large_w large_h : ℕ)
    (hw : SCALE_FACTOR ≤ large_w) (hh : SCALE_FACTOR ≤ large_h) :
    (∃ p : ℤ × ℤ,
      small_to_large_mapping
        (((large_w / SCALE_FACTOR : ℕ) : ℤ), ((large_h / SCALE_FACTOR : ℕ) : ℤ))
        (large_w, large_h) = some p ∧
      (p.1 - (large_w : ℤ)).natAbs ≤ 1 ∧ (p.2 - (large_h : ℤ)).natAbs ≤ 1) ∧
    small_to_large_mapping (1560, 3384) (49920, 108288) = some (49920, 108288) := by
  refine ⟨⟨((large_w : ℤ), (large_h : ℤ)),
    small_to_large_mapping_corner_exact large_w large_h hw hh, by simp, by simp⟩, ?_⟩
  have h := small_to_large_mapping_corner_exact 49920 108288 (by norm_num [SCALE_FACTOR])
    (by norm_num [SCALE_FACTOR])
  have e1 : ((49920 : ℕ) / SCALE_FACTOR : ℕ) = 1560 := by norm_num [SCALE_FACTOR]
  have e2 : ((108288 : ℕ) / SCALE_FACTOR : ℕ) = 3384 := by norm_num [SCALE_FACTOR]
  rw [e1, e2] at h
  exact_mod_cast h

/-- Witness for claim C5 at `large = (49920, 108288)`. -/
theorem small_to_large_mapping_boundary_witness :
    (∃ p : ℤ × ℤ,
      small_to_large_mapping
        (((49920 / SCALE_FACTOR : ℕ) : ℤ), ((108288 / SCALE_FACTOR : ℕ) : ℤ))
        (49920, 108288) = some p ∧
      (p.1 - (49920 : ℤ)).natAbs ≤ 1 ∧ (p.2 - (108288 : ℤ)).natAbs ≤ 1) ∧
    small_to_large_mapping (1560, 3384) (49920, 108288) = some (49920, 108288) :=
  small_to_large_mapping_boundary 49920 108288 (by norm_num [SCALE_FACTOR])
    (by norm_num [SCALE_FACTOR])

/-- Claim C10: `small_to_large_mapping` divides by `⌊large_w/SCALE_FACTOR⌋` and
`⌊large_h/SCALE_FACTOR⌋`; whenever both large dimensions are at least
`SCALE_FACTOR` both divisors are positive and the division-by-zero branch is
unreachable (the mapping succeeds on every pixel), whereas for an input with a
large dimension strictly below `SCALE_FACTOR` (here `large = (31, 64)`) the first
divisor is zero and the operation fails. -/
theorem small_to_large_mapping_safety :
    (∀ large_w large_h : ℕ, SCALE_FACTOR ≤ large_w → SCALE_FACTOR ≤ large_h →
      0 < ⌊(large_w : ℚ) / (SCALE_FACTOR : ℚ)⌋ ∧
      0 < ⌊(large_h : ℚ) / (SCALE_FACTOR : ℚ)⌋ ∧
      ∀ sp : ℤ × ℤ, ∃ p, small_to_large_mapping sp (large_w, large_h) = some p) ∧
    ((31 : ℕ) < SCALE_FACTOR ∧ ⌊((31 : ℕ) : ℚ) / (SCALE_FACTOR : ℚ)⌋ = 0 ∧
      small_to_large_mapping (0, 0) (31, 64) = none) := by
  constructor
  · intro lw lh hw hh
    have hsf : (0 : ℕ) < SCALE_FACTOR := by norm_num [SCALE_FACTOR]
    have hwpos : 0 < lw / SCALE_FACTOR := Nat.div_pos hw hsf
    have hhpos : 0 < lh / SCALE_FACTOR := Nat.div_pos hh hsf
    have fw : ⌊(lw : ℚ) / (SCALE_FACTOR : ℚ)⌋ = ((lw / SCALE_FACTOR : ℕ) : ℤ) :=
      floor_div_scale lw
    have fh : ⌊(lh : ℚ) / (SCALE_FACTOR : ℚ)⌋ = ((lh / SCALE_FACTOR : ℕ) : ℤ) :=
      floor_div_scale lh
    refine ⟨by rw [fw]; exact_mod_cast hwpos, by rw [fh]; exact_mod_cast hhpos, ?_⟩
    intro sp
    have hcond : ¬(((lw / SCALE_FACTOR : ℕ) : ℤ) = 0 ∨ ((lh / SCALE_FACTOR : ℕ) : ℤ) = 0) := by
      push_neg
      constructor
      · exact_mod_cast hwpos.ne'
      · exact_mod_cast hhpos.ne'
    simp only [small_to_large_mapping, fw, fh]
    rw [if_neg hcond]
    exact ⟨_, rfl⟩
  · refine ⟨by norm_num [SCALE_FACTOR], ?_, ?_⟩
    · norm_num [SCALE_FACTOR]
    · simp only [small_to_large_mapping]
      rw [if_pos]
      left
      norm_num [SCALE_FACTOR]

/-- Witness for claim C10's universal part at `large = (49920, 108288)`. -/
theorem small_to_large_mapping_safety_witness :
    0 < ⌊((49920 : ℕ) : ℚ) / (SCALE_FACTOR : ℚ)⌋ ∧
    ∃ p, small_to_large_mapping (7, 9) (49920, 108288) = some p :=
  ⟨(small_to_large_mapping_safety.1 49920 108288 (by norm_num [SCALE_FACTOR])
      (by norm_num [SCALE_FACTOR])).1,
   (small_to_large_mapping_safety.1 49920 108288 (by norm_num [SCALE_FACTOR])
      (by norm_num [SCALE_FACTOR])).2.2 (7, 9)⟩

/-! ### Pipeline proofs -/

/-- Claim C4: for every slide whose native dimensions are `(large_w, large_h)` with
both positive (and `SCALE_FACTOR > 0`), the pipeline computes the small dimensions
as `new_w = ⌊large_w / SCALE_FACTOR⌋`, `new_h = ⌊large_h / SCALE_FACTOR⌋`, and these
exact values are passed to the encoder for both the artifact path and the thumbnail
path of the same run. -/
theorem training_slide_to_image_floor_consistency (fs : String → OpenOutcome)
    (slide_number large_w large_h : ℕ) (hw : 0 < large_w) (hh : 0 < large_h)
    (hopen : fs (get_training_slide_path slide_number) =
      OpenOutcome.opened ⟨large_w, large_h⟩) :
    ∃ new_w new_h : ℕ,
      ((new_w : ℤ) = ⌊(large_w : ℚ) / (SCALE_FACTOR : ℚ)⌋ ∧
       (new_h : ℤ) = ⌊(large_h : ℚ) / (SCALE_FACTOR : ℚ)⌋) ∧
      training_slide_to_image fs slide_number =
        Except.ok (get_training_image_path slide_number large_w large_h new_w new_h,
          get_training_thumbnail_path slide_number large_w large_h new_w new_h,
          (new_w, new_h)) := by
  refine ⟨large_w / SCALE_FACTOR, large_h / SCALE_FACTOR,
    ⟨(floor_div_scale large_w).symm, (floor_div_scale large_h).symm⟩, ?_⟩
  simp only [training_slide_to_image, open_slide, hopen]

/-- Witness for claim C4 with a slide source providing dimensions
`(49920, 108288)` for slide 5. -/
theorem training_slide_to_image_floor_consistency_witness :
    ∃ new_w new_h : ℕ,
      ((new_w : ℤ) = ⌊((49920 : ℕ) : ℚ) / (SCALE_FACTOR : ℚ)⌋ ∧
       (new_h : ℤ) = ⌊((108288 : ℕ) : ℚ) / (SCALE_FACTOR : ℚ)⌋) ∧
      training_slide_to_image (fun _ => OpenOutcome.opened ⟨49920, 108288⟩) 5 =
        Except.ok (get_training_image_path 5 49920 108288 new_w new_h,
          get_training_thumbnail_path 5 49920 108288 new_w new_h,
          (new_w, new_h)) :=
  training_slide_to_image_floor_consistency _ 5 49920 108288 (by norm_num) (by norm_num)
    rfl

/-- Claim C7: for every identifier whose slide cannot be opened — whether the
underlying codec rejects the file or the path does not exist, both collapsed by
`open_slide` into the same `None` result — `training_slide_to_image` fails with the
(single) slide-open failure kind rather than succeeding. -/
theorem training_slide_to_image_open_failure (fs : String → OpenOutcome)
    (slide_number : ℕ)
    (hfail : fs (get_training_slide_path slide_number) = OpenOutcome.openSlideError ∨
      fs (get_training_slide_path slide_number) = OpenOutcome.fileNotFound) :
    training_slide_to_image fs slide_number =
      Except.error PipelineError.slideOpenError := by
  rcases hfail with h | h <;> simp [training_slide_to_image, open_slide, h]

/-- Witness for claim C7 with a filesystem on which every path is missing. -/
theorem training_slide_to_image_open_failure_witness :
    training_slide_to_image (fun _ => OpenOutcome.fileNotFound) 1 =
      Except.error PipelineError.slideOpenError :=
  training_slide_to_image_open_failure _ 1 (Or.inr rfl)

/-! ### Properties of the greedy matcher -/

theorem firstSome_none {α β : Type} (f : α → Option β) (l : List α)
    (h : ∀ a ∈ l, f a = none) : firstSome f l = none := by
  induction l with
  | nil => rfl
  | cons a as ih =>
    simp only [firstSome, h a (List.mem_cons_self a as)]
    exact ih (fun x hx => h x (List.mem_cons_of_mem a hx))

theorem firstSome_none_elim {α β : Type} (f : α → Option β) (l : List α)
    (h : firstSome f l = none) : ∀ a ∈ l, f a = none := by
  induction l with
  | nil => intro a ha; simp at ha
  | cons a as ih =>
    intro x hx
    cases hfa : f a with
    | some b =>
      simp only [firstSome, hfa] at h
      exact Option.noConfusion h
    | none =>
      simp only [firstSome, hfa] at h
      rcases List.mem_cons.mp hx with rfl | hx'
      · exact hfa
      · exact ih h x hx'

theorem firstSome_append_some {α β : Type} (f : α → Option β) {l₁ : List α} (l₂ : List α)
    {b : β} (h : firstSome f l₁ = some b) : firstSome f (l₁ ++ l₂) = some b := by
  induction l₁ with
  | nil => simp [firstSome] at h
  | cons a as ih =>
    cases hfa : f a with
    | some c =>
      simp only [firstSome, hfa] at h
      simp only [List.cons_append, firstSome, hfa]
      exact h
    | none =>
      simp only [firstSome, hfa] at h
      simp only [List.cons_append, firstSome, hfa]
      exact ih h

theorem firstSome_append_none {α β : Type} (f : α → Option β) {l₁ : List α} (l₂ : List α)
    (h : firstSome f l₁ = none) : firstSome f (l₁ ++ l₂) = firstSome f l₂ := by
  induction l₁ with
  | nil => rfl
  | cons a as ih =>
    cases hfa : f a with
    | some c =>
      simp only [firstSome, hfa] at h
      exact Option.noConfusion h
    | none =>
      simp only [firstSome, hfa] at h
      simp only [List.cons_append, firstSome, hfa]
      exact ih h

theorem firstSome_map {α γ β : Type} (f : α → Option β) (g : γ → α) (l : List γ) :
    firstSome f (l.map g) = firstSome (fun x => f (g x)) l := by
  induction l with
  | nil => rfl
  | cons a as ih =>
    simp only [List.map_cons, firstSome]
    cases f (g a) <;> simp [ih]

theorem firstSome_some_mem {α β : Type} (f : α → Option β) (l : List α) (b : β)
    (h : firstSome f l = some b) : ∃ a ∈ l, f a = some b := by
  induction l with
  | nil => simp [firstSome] at h
  | cons a as ih =>
    cases hfa : f a with
    | some c =>
      simp only [firstSome, hfa] at h
      exact ⟨a, List.mem_cons_self a as, by rw [hfa, h]⟩
    | none =>
      simp only [firstSome, hfa] at h
      obtain ⟨x, hx, hfx⟩ := ih h
      exact ⟨x, List.mem_cons_of_mem a hx, hfx⟩

theorem splits_pair (cs : List Char) :
    ∀ pr ∈ splits cs, pr.1 ++ pr.2 = cs ∧ ∀ c ∈ pr.1, dotMatch c = true := by
  induction cs with
  | nil =>
    intro pr hpr
    simp only [splits, List.mem_singleton] at hpr
    subst hpr
    exact ⟨rfl, by simp⟩
  | cons c cs ih =>
    intro pr hpr
    by_cases hc : dotMatch c = true
    · simp only [splits, if_pos hc] at hpr
      rcases List.mem_append.mp hpr with h | h
      · obtain ⟨q, hq, rfl⟩ := List.mem_map.mp h
        obtain ⟨hq1, hq2⟩ := ih q hq
        refine ⟨by simp [hq1], ?_⟩
        intro d hd
        rcases List.mem_cons.mp hd with rfl | hd'
        · exact hc
        · exact hq2 d hd'
      · simp only [List.mem_singleton] at h
        subst h
        exact ⟨rfl, by simp⟩
    · simp only [splits, if_neg hc, List.mem_singleton] at hpr
      subst hpr
      exact ⟨rfl, by simp⟩

theorem splits_concat (cs : List Char) :
    ∃ L, splits cs = L ++ [([], cs)] ∧ ∀ pr ∈ L, pr.1 ≠ [] := by
  cases cs with
  | nil => exact ⟨[], rfl, by simp⟩
  | cons c cs =>
    by_cases hc : dotMatch c = true
    · refine ⟨(splits cs).map (fun p => (c :: p.1, p.2)), by simp [splits, if_pos hc], ?_⟩
      intro pr hpr
      obtain ⟨q, _, rfl⟩ := List.mem_map.mp hpr
      simp
    · exact ⟨[], by simp [splits, if_neg hc], by simp⟩

theorem splits_mem : ∀ (g r : List Char), (∀ c ∈ g, dotMatch c = true) →
    (g, r) ∈ splits (g ++ r) := by
  intro g
  induction g with
  | nil =>
    intro r _
    obtain ⟨L, hL, _⟩ := splits_concat r
    rw [List.nil_append, hL]
    exact List.mem_append_right _ (List.mem_singleton.mpr rfl)
  | cons c g ih =>
    intro r hdot
    have hc : dotMatch c = true := hdot c (List.mem_cons_self c g)
    simp only [List.cons_append, splits, if_pos hc]
    refine List.mem_append_left _ ?_
    exact List.mem_map.mpr ⟨(g, r), ih r (fun d hd => hdot d (List.mem_cons_of_mem c hd)), rfl⟩

theorem starMatch_none {β : Type} (k : List Char → List Char → Option β) (cs : List Char)
    (h : ∀ g r, g ++ r = cs → k g r = none) : starMatch k cs = none := by
  refine firstSome_none _ _ ?_
  intro pr hpr
  exact h pr.1 pr.2 (splits_pair cs pr hpr).1

theorem starMatch_some_elim {β : Type} (k : List Char → List Char → Option β) (cs : List Char)
    (b : β) (h : starMatch k cs = some b) :
    ∃ g r, g ++ r = cs ∧ (∀ c ∈ g, dotMatch c = true) ∧ k g r = some b := by
  obtain ⟨pr, hpr, hf⟩ := firstSome_some_mem _ _ _ h
  obtain ⟨h1, h2⟩ := splits_pair cs pr hpr
  exact ⟨pr.1, pr.2, h1, h2, hf⟩

theorem starMatch_none_elim {β : Type} (k : List Char → List Char → Option β) (cs : List Char)
    (h : starMatch k cs = none) :
    ∀ g r, g ++ r = cs → (∀ c ∈ g, dotMatch c = true) → k g r = none := by
  intro g r hgr hdot
  subst hgr
  exact firstSome_none_elim _ _ h (g, r) (splits_mem g r hdot)

/-- Greedy success in the middle: if consuming exactly `p` succeeds and every
strictly longer consumption fails, the starMatch returns the `p`-result (longer
candidates are tried first and all fail). -/
theorem starMatch_succ_mid {β : Type} (b : β) (p : List Char) :
    ∀ (k : List Char → List Char → Option β) (q : List Char),
      (∀ c ∈ p, dotMatch c = true) → k p q = some b →
      (∀ u v, u ++ v = q → u ≠ [] → k (p ++ u) v = none) →
      starMatch k (p ++ q) = some b := by
  induction p with
  | nil =>
    intro k q _ hk hfail
    obtain ⟨L, hL, hLne⟩ := splits_concat q
    rw [List.nil_append]
    unfold starMatch
    rw [hL]
    have hnone : firstSome (fun pr => k pr.1 pr.2) L = none := by
      refine firstSome_none _ _ ?_
      intro pr hpr
      have hmem : pr ∈ splits q := by
        rw [hL]
        exact List.mem_append_left _ hpr
      exact hfail pr.1 pr.2 (splits_pair q pr hmem).1 (hLne pr hpr)
    rw [firstSome_append_none _ _ hnone]
    simp only [firstSome]
    rw [show k ([] : List Char) q = some b from hk]
  | cons c p ih =>
    intro k q hdot hk hfail
    have hc : dotMatch c = true := hdot c (List.mem_cons_self c p)
    have hmain : starMatch (fun g r => k (c :: g) r) (p ++ q) = some b := by
      refine ih _ q (fun d hd => hdot d (List.mem_cons_of_mem c hd)) hk ?_
      intro u v huv hu
      have h' := hfail u v huv hu
      simpa using h'
    show starMatch k (c :: (p ++ q)) = some b
    unfold starMatch
    simp only [splits, if_pos hc]
    refine firstSome_append_some _ _ ?_
    rw [firstSome_map]
    exact hmain

/-! ### Suffix decomposition lemmas -/

theorem suffix_char_split (ch : Char) (B C t : List Char) (hB : ch ∉ B)
    (h : (ch :: t) <:+ (B ++ ch :: C)) : t = C ∨ (ch :: t) <:+ C := by
  induction B with
  | nil =>
    obtain ⟨pre, hpre⟩ := h
    cases pre with
    | nil =>
      left
      simpa using hpre
    | cons a pre' =>
      right
      rw [List.cons_append, List.nil_append] at hpre
      injection hpre with h1 h2
      exact ⟨pre', h2⟩
  | cons b B ih =>
    obtain ⟨pre, hpre⟩ := h
    cases pre with
    | nil =>
      simp only [List.nil_append, List.cons_append] at hpre
      injection hpre with h1 h2
      exact absurd (h1 ▸ List.mem_cons_self b B) hB
    | cons a pre' =>
      rw [List.cons_append, List.cons_append] at hpre
      injection hpre with h1 h2
      exact ih (fun hm => hB (List.mem_cons_of_mem b hm)) ⟨pre', h2⟩

theorem suffix_char_split_unique (ch : Char) (B C t : List Char) (hB : ch ∉ B)
    (hC : ch ∉ C) (h : (ch :: t) <:+ (B ++ ch :: C)) : t = C := by
  rcases suffix_char_split ch B C t hB h with h1 | h1
  · exact h1
  · exact absurd (h1.subset (List.mem_cons_self ch t)) hC

theorem suffix_cons_in_tail (ch c : Char) (B C v : List Char)
    (h : (ch :: v) <:+ (B ++ c :: C)) (hB : ch ∉ B) (hc : ch ≠ c) : (ch :: v) <:+ C := by
  induction B with
  | nil =>
    obtain ⟨pre, hpre⟩ := h
    cases pre with
    | nil =>
      rw [List.nil_append, List.nil_append] at hpre
      injection hpre with h1 h2
      exact absurd h1 hc
    | cons a pre' =>
      rw [List.cons_append, List.nil_append] at hpre
      injection hpre with h1 h2
      exact ⟨pre', h2⟩
  | cons b B ih =>
    obtain ⟨pre, hpre⟩ := h
    cases pre with
    | nil =>
      simp only [List.nil_append, List.cons_append] at hpre
      injection hpre with h1 h2
      exact absurd (h1 ▸ List.mem_cons_self b B) hB
    | cons a pre' =>
      rw [List.cons_append, List.cons_append] at hpre
      injection hpre with h1 h2
      exact ih ⟨pre', h2⟩ (fun hm => hB (List.mem_cons_of_mem b hm))

/-! ### Failure of the matcher stages on regions lacking the needed literals -/

theorem starMatch_K3_none (g1 g2 : List Char) (cs : List Char) (hx : 'x' ∉ cs) :
    starMatch (K3 g1 g2) cs = none := by
  refine starMatch_none _ _ ?_
  intro g r hgr
  cases r with
  | nil => rfl
  | cons a r' =>
    have ha : a ≠ 'x' := by
      intro h
      subst h
      exact hx (by rw [← hgr]; simp)
    simp [K3, ha]

theorem starMatch_K2_none (g1 : List Char) (cs : List Char)
    (hdash : ∀ v, ('-' :: v) <:+ cs → 'x' ∉ v) :
    starMatch (K2 g1) cs = none := by
  refine starMatch_none _ _ ?_
  intro g r hgr
  cases r with
  | nil => rfl
  | cons a r' =>
    by_cases ha : a = '-'
    · subst ha
      rw [show K2 g1 g ('-' :: r') = starMatch (K3 g1 g) r' from by simp [K2]]
      exact starMatch_K3_none g1 g r' (hdash r' ⟨g, hgr⟩)
    · simp [K2, ha]

theorem starMatch_K1_none (cs : List Char)
    (hx : ∀ v, ('x' :: v) <:+ cs → ∀ g, starMatch (K2 g) v = none) :
    starMatch K1 cs = none := by
  refine starMatch_none _ _ ?_
  intro g r hgr
  cases r with
  | nil => rfl
  | cons a r' =>
    by_cases ha : a = 'x'
    · subst ha
      rw [show K1 g ('x' :: r') = starMatch (K2 g) r' from by simp [K1]]
      exact hx r' ⟨g, hgr⟩ g
    · simp [K1, ha]

theorem starMatch_K1_none_noX (cs : List Char) (hx : 'x' ∉ cs) :
    starMatch K1 cs = none := by
  refine starMatch_K1_none cs ?_
  intro v hv g
  exact absurd (hv.subset (List.mem_cons_self 'x' v)) hx

/-! ### Success of the matcher stages on the canonical name shape -/

theorem starMatch_K4_succ (g1 g2 g3 p E : List Char)
    (hp : ∀ c ∈ p, dotMatch c = true) (hE : '.' ∉ E) :
    starMatch (K4 g1 g2 g3) (p ++ '.' :: E) = some (g1, g2, g3, p) := by
  refine starMatch_succ_mid _ p _ _ hp ?_ ?_
  · simp only [K4]
    rw [if_true]
  · intro u v huv hu
    cases v with
    | nil => rfl
    | cons a v' =>
      by_cases ha : a = '.'
      · subst ha
        exfalso
        apply hE
        cases u with
        | nil => exact absurd rfl hu
        | cons x u' =>
          rw [List.cons_append] at huv
          injection huv with h1 h2
          rw [← h2]
          simp
      · simp [K4, ha]

theorem starMatch_K3_succ (g1 g2 d3 g4 E : List Char)
    (h3 : ∀ c ∈ d3, dotMatch c = true)
    (h4 : ∀ c ∈ g4, dotMatch c = true)
    (hx4 : 'x' ∉ g4) (hxE : 'x' ∉ E) (hE : '.' ∉ E) :
    starMatch (K3 g1 g2) (d3 ++ 'x' :: (g4 ++ '.' :: E)) = some (g1, g2, d3, g4) := by
  refine starMatch_succ_mid _ d3 _ _ h3 ?_ ?_
  · simp only [K3]
    rw [if_true]
    exact starMatch_K4_succ g1 g2 d3 g4 E h4 hE
  · intro u v huv hu
    cases v with
    | nil => rfl
    | cons a v' =>
      by_cases ha : a = 'x'
      · subst ha
        exfalso
        cases u with
        | nil => exact absurd rfl hu
        | cons x u' =>
          rw [List.cons_append] at huv
          injection huv with h1 h2
          have hmem : 'x' ∈ g4 ++ '.' :: E := by
            rw [← h2]
            simp
          rcases List.mem_append.mp hmem with hm | hm
          · exact hx4 hm
          · rcases List.mem_cons.mp hm with hm' | hm'
            · exact absurd hm' (by decide)
            · exact hxE hm'
      · simp [K3, ha]

/-- The full greedy match on a string of the canonical shape
`A-<d1>x<d2>-<d3>x<g4>.<E>`: the captured groups are exactly `d1,d2,d3,g4`.
The hypotheses say that the dimension fields contain no separator characters and
that the extension part is separator-free; `g4` may contain dashes (covering the
derived names that append `-filtered` and the like), as long as no `x` occurs
after such a dash (hypotheses `hq4`, `hq3`). -/
theorem parseDims_shape (A d1 d2 d3 g4 E : List Char)
    (hA : ∀ c ∈ A, dotMatch c = true)
    (h1 : ∀ c ∈ d1, dotMatch c = true)
    (h2 : ∀ c ∈ d2, dotMatch c = true)
    (h3 : ∀ c ∈ d3, dotMatch c = true)
    (h4 : ∀ c ∈ g4, dotMatch c = true)
    (hdotE : '.' ∉ E) (hxE : 'x' ∉ E)
    (hx2 : 'x' ∉ d2) (hx3 : 'x' ∉ d3) (hx4 : 'x' ∉ g4)
    (hd1 : '-' ∉ d1) (hd2 : '-' ∉ d2)
    (hq4 : ∀ v, ('-' :: v) <:+ (g4 ++ '.' :: E) → 'x' ∉ v)
    (hq3 : ∀ v, ('-' :: v) <:+ (d3 ++ 'x' :: (g4 ++ '.' :: E)) → 'x' ∉ v) :
    parseDims (A ++ '-' :: (d1 ++ 'x' :: (d2 ++ '-' :: (d3 ++ 'x' :: (g4 ++ '.' :: E))))) =
      some (d1, d2, d3, g4) := by
  have hxQ4 : 'x' ∉ g4 ++ '.' :: E := by
    intro hm
    rcases List.mem_append.mp hm with h | h
    · exact hx4 h
    · rcases List.mem_cons.mp h with h' | h'
      · exact absurd h' (by decide)
      · exact hxE h'
  have hK2Q4 : ∀ g, starMatch (K2 g) (g4 ++ '.' :: E) = none := fun g =>
    starMatch_K2_none g _ hq4
  have hK1Q3 : starMatch K1 (d3 ++ 'x' :: (g4 ++ '.' :: E)) = none := by
    refine starMatch_K1_none _ ?_
    intro v hv g
    have hveq : v = g4 ++ '.' :: E := suffix_char_split_unique 'x' d3 _ v hx3 hxQ4 hv
    rw [hveq]
    exact hK2Q4 g
  have hK1R : starMatch K1 (d1 ++ 'x' :: (d2 ++ '-' :: (d3 ++ 'x' :: (g4 ++ '.' :: E)))) =
      some (d1, d2, d3, g4) := by
    refine starMatch_succ_mid _ d1 _ _ h1 ?_ ?_
    · simp only [K1]
      rw [if_true]
      refine starMatch_succ_mid _ d2 _ _ h2 ?_ ?_
      · simp only [K2]
        rw [if_true]
        exact starMatch_K3_succ d1 d2 d3 g4 E h3 h4 hx4 hxE hdotE
      · intro u v huv hu
        cases v with
        | nil => rfl
        | cons a v' =>
          by_cases ha : a = '-'
          · subst ha
            have hsfx : ('-' :: v') <:+ (d3 ++ 'x' :: (g4 ++ '.' :: E)) := by
              cases u with
              | nil => exact absurd rfl hu
              | cons x u' =>
                rw [List.cons_append] at huv
                injection huv with hu1 hu2
                exact ⟨u', hu2⟩
            simp only [K2]
            rw [if_true]
            exact starMatch_K3_none _ _ v' (hq3 v' hsfx)
          · simp [K2, ha]
    · intro u v huv hu
      cases v with
      | nil => rfl
      | cons a v' =>
        by_cases ha : a = 'x'
        · subst ha
          have hsfx : ('x' :: v') <:+
              (d2 ++ '-' :: (d3 ++ 'x' :: (g4 ++ '.' :: E))) := by
            cases u with
            | nil => exact absurd rfl hu
            | cons x u' =>
              rw [List.cons_append] at huv
              injection huv with hu1 hu2
              exact ⟨u', hu2⟩
          have hsfx' : ('x' :: v') <:+
              ((d2 ++ '-' :: d3) ++ 'x' :: (g4 ++ '.' :: E)) := by
            simpa only [List.append_assoc, List.cons_append] using hsfx
          have hxB : 'x' ∉ d2 ++ '-' :: d3 := by
            intro hm
            rcases List.mem_append.mp hm with h | h
            · exact hx2 h
            · rcases List.mem_cons.mp h with h' | h'
              · exact absurd h' (by decide)
              · exact hx3 h'
          have hveq : v' = g4 ++ '.' :: E :=
            suffix_char_split_unique 'x' (d2 ++ '-' :: d3) _ v' hxB hxQ4 hsfx'
          simp only [K1]
          rw [if_true, hveq]
          exact hK2Q4 _
        · simp [K1, ha]
  unfold parseDims
  refine starMatch_succ_mid _ A _ _ hA ?_ ?_
  · simp only [K0]
    rw [if_true]
    exact hK1R
  · intro u v huv hu
    cases v with
    | nil => rfl
    | cons a v' =>
      by_cases ha : a = '-'
      · subst ha
        have hsfx : ('-' :: v') <:+
            (d1 ++ 'x' :: (d2 ++ '-' :: (d3 ++ 'x' :: (g4 ++ '.' :: E)))) := by
          cases u with
          | nil => exact absurd rfl hu
          | cons x u' =>
            rw [List.cons_append] at huv
            injection huv with hu1 hu2
            exact ⟨u', hu2⟩
        have hsfx' : ('-' :: v') <:+
            ((d1 ++ 'x' :: d2) ++ '-' :: (d3 ++ 'x' :: (g4 ++ '.' :: E))) := by
          simpa only [List.append_assoc, List.cons_append] using hsfx
        have hdB : '-' ∉ d1 ++ 'x' :: d2 := by
          intro hm
          rcases List.mem_append.mp hm with h | h
          · exact hd1 h
          · rcases List.mem_cons.mp h with h' | h'
            · exact absurd h' (by decide)
            · exact hd2 h'
        simp only [K0]
        rw [if_true]
        rcases suffix_char_split '-' (d1 ++ 'x' :: d2) _ v' hdB hsfx' with hveq | hsfx'' 
        · rw [hveq]
          exact hK1Q3
        · exact starMatch_K1_none_noX v' (hq3 v' hsfx'')
      · simp [K0, ha]

/-! ### Characters of decimal representations -/

theorem toDigitsCore_digit_mem (fuel : ℕ) :
    ∀ (m : ℕ) (acc : List Char),
      (∀ c ∈ acc, c ∈ ['0', '1', '2', '3', '4', '5', '6', '7', '8', '9']) →
      ∀ c ∈ Nat.toDigitsCore 10 fuel m acc,
        c ∈ ['0', '1', '2', '3', '4', '5', '6', '7', '8', '9'] := by
  induction fuel with
  | zero =>
    intro m acc hacc c hc
    exact hacc c hc
  | succ fuel ih =>
    intro m acc hacc c hc
    have h10 : m % 10 < 10 := Nat.mod_lt _ (by norm_num)
    have hd : Nat.digitChar (m % 10) ∈ ['0', '1', '2', '3', '4', '5', '6', '7', '8', '9'] := by
      generalize m % 10 = r at h10
      interval_cases r <;> decide
    simp only [Nat.toDigitsCore] at hc
    by_cases hterm : m / 10 = 0
    · rw [if_pos hterm] at hc
      rcases List.mem_cons.mp hc with rfl | hc'
      · exact hd
      · exact hacc c hc'
    · rw [if_neg hterm] at hc
      refine ih (m / 10) _ ?_ c hc
      intro c' hc'
      rcases List.mem_cons.mp hc' with rfl | hc''
      · exact hd
      · exact hacc c' hc''

theorem repr_digit_mem (n : ℕ) :
    ∀ c ∈ (Nat.repr n).data, c ∈ ['0', '1', '2', '3', '4', '5', '6', '7', '8', '9'] := by
  intro c hc
  exact toDigitsCore_digit_mem (n + 1) n [] (by simp) c hc

theorem repr_char_props (n : ℕ) :
    ∀ c ∈ (Nat.repr n).data, dotMatch c = true ∧ c ≠ '-' ∧ c ≠ 'x' ∧ c ≠ '.' := by
  intro c hc
  have h := repr_digit_mem n c hc
  fin_cases h <;> refine ⟨rfl, by decide, by decide, by decide⟩

theorem zfill_repr_char_props (n width : ℕ) :
    ∀ c ∈ (zfill (Nat.repr n) width).data, dotMatch c = true := by
  intro c hc
  simp only [zfill] at hc
  rcases List.mem_append.mp hc with h | h
  · have := List.eq_of_mem_replicate h
    subst this
    rfl
  · exact (repr_char_props n c h).1

theorem repr_no_dash (n : ℕ) : '-' ∉ (Nat.repr n).data :=
  fun hm => (repr_char_props n '-' hm).2.1 rfl

theorem repr_no_x (n : ℕ) : 'x' ∉ (Nat.repr n).data :=
  fun hm => (repr_char_props n 'x' hm).2.2.1 rfl

theorem repr_dotMatch (n : ℕ) : ∀ c ∈ (Nat.repr n).data, dotMatch c = true :=
  fun c hc => (repr_char_props n c hc).1

theorem dotMatch_append {l₁ l₂ : List Char} (h₁ : ∀ c ∈ l₁, dotMatch c = true)
    (h₂ : ∀ c ∈ l₂, dotMatch c = true) : ∀ c ∈ l₁ ++ l₂, dotMatch c = true := by
  intro c hc
  rcases List.mem_append.mp hc with h | h
  · exact h₁ c h
  · exact h₂ c h

/-- Decoding any string whose character data has the canonical shape
`A-<lw>x<lh>-<sw>x<g4>.<E>` (with decimal dimension fields) yields the three
decimal fields and the raw fourth group `g4`. -/
theorem parse_canonical_name (s A : String) (lw lh sw : ℕ) (g4 E : String)
    (hs : s.data = A.data ++ '-' :: ((Nat.repr lw).data ++ 'x' ::
      ((Nat.repr lh).data ++ '-' :: ((Nat.repr sw).data ++ 'x' ::
        (g4.data ++ '.' :: E.data)))))
    (hA : ∀ c ∈ A.data, dotMatch c = true)
    (h4 : ∀ c ∈ g4.data, dotMatch c = true)
    (hx4 : 'x' ∉ g4.data)
    (hq4 : ∀ v, ('-' :: v) <:+ (g4.data ++ '.' :: E.data) → 'x' ∉ v)
    (hdotE : '.' ∉ E.data) (hxE : 'x' ∉ E.data) :
    parse_dimensions_from_training_image_filename s =
      some (Nat.repr lw, Nat.repr lh, Nat.repr sw, g4) := by
  have hq3 : ∀ v, ('-' :: v) <:+ ((Nat.repr sw).data ++ 'x' :: (g4.data ++ '.' :: E.data)) →
      'x' ∉ v := by
    intro v hv
    exact hq4 v (suffix_cons_in_tail '-' 'x' _ _ v hv (repr_no_dash sw) (by decide))
  have hmain := parseDims_shape A.data (Nat.repr lw).data (Nat.repr lh).data
    (Nat.repr sw).data g4.data E.data hA (repr_dotMatch lw) (repr_dotMatch lh)
    (repr_dotMatch sw) h4 hdotE hxE (repr_no_x lh) (repr_no_x sw) hx4
    (repr_no_dash lw) (repr_no_dash lh) hq4 hq3
  unfold parse_dimensions_from_training_image_filename
  rw [hs, hmain]

/-- `get_training_image_path` (slide.py:121-147) with the module configuration
constant `SCALE_FACTOR` taken as an explicit parameter, so that claims quantifying
over the configured scale factor can be stated; at `SCALE_FACTOR` itself it is
definitionally the source function (see `codec_roundtrip`). -/
def get_training_image_path_cfg
    (scale_factor slide_number large_w large_h small_w small_h : ℕ) : String :=
  DEST_TRAIN_DIR ++ os_sep ++ TRAIN_PREFIX ++ zfill (Nat.repr slide_number) 3 ++ "-" ++
    Nat.repr scale_factor ++ "x-" ++ DEST_TRAIN_SUFFIX ++ Nat.repr large_w ++ "x" ++
    Nat.repr large_h ++ "-" ++ Nat.repr small_w ++ "x" ++ Nat.repr small_h ++ "." ++
    DEST_TRAIN_EXT

/-- Claim C1: codec round-trip.  For all positive integers `(s, lw, lh, sw, sh)`
(and any slide number), decoding the artifact name produced by the encoder built
with scale factor `s` returns exactly the four dimension values `(lw, lh, sw, sh)`
(as their decimal strings, which is what the source decoder returns); the encoder
with the module's `SCALE_FACTOR` is the source's `get_training_image_path`. -/
theorem codec_roundtrip (s slide_number lw lh sw sh : ℕ)
    (hs : 0 < s) (h1 : 0 < lw) (h2 : 0 < lh) (h3 : 0 < sw) (h4 : 0 < sh) :
    parse_dimensions_from_training_image_filename
        (get_training_image_path_cfg s slide_number lw lh sw sh) =
      some (Nat.repr lw, Nat.repr lh, Nat.repr sw, Nat.repr sh) ∧
    get_training_image_path slide_number lw lh sw sh =
      get_training_image_path_cfg SCALE_FACTOR slide_number lw lh sw sh := by
  refine ⟨?_, rfl⟩
  refine parse_canonical_name _
    (DEST_TRAIN_DIR ++ os_sep ++ TRAIN_PREFIX ++ zfill (Nat.repr slide_number) 3 ++ "-" ++
      Nat.repr s ++ "x") lw lh sw (Nat.repr sh) DEST_TRAIN_EXT ?_ ?_ ?_ ?_ ?_ ?_ ?_
  · simp only [get_training_image_path_cfg, String.data_append, List.append_assoc,
      List.cons_append, List.nil_append,
      show ("-" : String).data = ['-'] from rfl,
      show ("x" : String).data = ['x'] from rfl,
      show ("x-" : String).data = ['x', '-'] from rfl,
      show ("." : String).data = ['.'] from rfl,
      show DEST_TRAIN_SUFFIX.data = [] from rfl]
  · simp only [String.data_append]
    exact dotMatch_append (dotMatch_append (dotMatch_append (dotMatch_append
      (dotMatch_append (dotMatch_append (by decide) (by decide)) (by decide))
      (zfill_repr_char_props slide_number 3)) (by decide)) (repr_dotMatch s)) (by decide)
  · exact repr_dotMatch sh
  · exact repr_no_x sh
  · intro v hv
    have hm : '-' ∈ (Nat.repr sh).data ++ '.' :: DEST_TRAIN_EXT.data :=
      hv.subset (List.mem_cons_self _ _)
    rcases List.mem_append.mp hm with h | h
    · exact absurd h (repr_no_dash sh)
    · rcases List.mem_cons.mp h with h' | h'
      · exact absurd h' (by decide)
      · exact absurd h' (by decide)
  · decide
  · decide

/-- Claim C6 (amended): on filter-result names
`...-{s}x-{lw}x{lh}-{sw}x{sh}-filtered.{ext}` produced by
`get_filter_image_result`, the decoder correctly extracts `lw`, `lh` and `sw`, but
the fourth captured value is `{sh}-filtered` — the appended suffix is greedily
absorbed into the last group — rather than `sh` alone. -/
theorem filter_image_result_parse (slide_number lw lh sw sh : ℕ) :
    parse_dimensions_from_training_image_filename
        (get_filter_image_result slide_number (Nat.repr lw) (Nat.repr lh) (Nat.repr sw)
          (Nat.repr sh)) =
      some (Nat.repr lw, Nat.repr lh, Nat.repr sw,
        Nat.repr sh ++ "-" ++ FILTER_RESULT_TEXT) := by
  refine parse_canonical_name _
    (FILTER_DIR ++ os_sep ++ TRAIN_PREFIX ++ zfill (Nat.repr slide_number) 3 ++ "-" ++
      Nat.repr SCALE_FACTOR ++ "x") lw lh sw (Nat.repr sh ++ "-" ++ FILTER_RESULT_TEXT)
    DEST_TRAIN_EXT ?_ ?_ ?_ ?_ ?_ ?_ ?_
  · simp only [get_filter_image_result, String.data_append, List.append_assoc,
      List.cons_append, List.nil_append,
      show ("-" : String).data = ['-'] from rfl,
      show ("x" : String).data = ['x'] from rfl,
      show ("x-" : String).data = ['x', '-'] from rfl,
      show ("." : String).data = ['.'] from rfl,
      show FILTER_SUFFIX.data = [] from rfl]
  · simp only [String.data_append]
    exact dotMatch_append (dotMatch_append (dotMatch_append (dotMatch_append
      (dotMatch_append (dotMatch_append (by decide) (by decide)) (by decide))
      (zfill_repr_char_props slide_number 3)) (by decide)) (repr_dotMatch SCALE_FACTOR))
      (by decide)
  · simp only [String.data_append]
    exact dotMatch_append (dotMatch_append (repr_dotMatch sh) (by decide)) (by decide)
  · simp only [String.data_append]
    intro hm
    rcases List.mem_append.mp hm with h | h
    · rcases List.mem_append.mp h with h' | h'
      · exact repr_no_x sh h'
      · exact absurd h' (by decide)
    · exact absurd h (by decide)
  · intro v hv
    have hregion : (Nat.repr sh ++ "-" ++ FILTER_RESULT_TEXT).data ++ '.' ::
        DEST_TRAIN_EXT.data =
        (Nat.repr sh).data ++ '-' :: (FILTER_RESULT_TEXT.data ++ '.' ::
          DEST_TRAIN_EXT.data) := by
      simp only [String.data_append, List.append_assoc, List.cons_append, List.nil_append,
        show ("-" : String).data = ['-'] from rfl]
    rw [hregion] at hv
    have hveq : v = FILTER_RESULT_TEXT.data ++ '.' :: DEST_TRAIN_EXT.data :=
      suffix_char_split_unique '-' _ _ v (repr_no_dash sh) (by decide) hv
    rw [hveq]
    decide
  · decide
  · decide

/-- Claim C6 counterexample: the decoder applied to the filter-result name for
slide 5 with dimensions `49920x108288-1560x3384` does not return the four
dimension values — the fourth group comes back as `"3384-filtered"`. -/
theorem filter_image_result_parse_counterexample :
    parse_dimensions_from_training_image_filename
        (get_filter_image_result 5 "49920" "108288" "1560" "3384") ≠
      some ("49920", "108288", "1560", "3384") := by
  have h := parse_canonical_name
    (get_filter_image_result 5 "49920" "108288" "1560" "3384")
    (FILTER_DIR ++ os_sep ++ TRAIN_PREFIX ++ zfill (Nat.repr 5) 3 ++ "-" ++
      Nat.repr SCALE_FACTOR ++ "x") 49920 108288 1560
    ("3384" ++ "-" ++ FILTER_RESULT_TEXT) DEST_TRAIN_EXT
    (by decide) (by decide) (by decide) (by decide)
    (by
      intro v hv
      have hveq : v = FILTER_RESULT_TEXT.data ++ '.' :: DEST_TRAIN_EXT.data :=
        suffix_char_split_unique '-' ("3384" : String).data _ v (by decide) (by decide)
          (by simpa using hv)
      rw [hveq]
      decide)
    (by decide) (by decide)
  rw [h]
  decide

/-! ### Soundness and completeness of the match -/

/-- The canonical trailing dimension pattern is present in `s`: some decomposition
of the characters realizes `.*-(.*)x(.*)-(.*)x(.*)\..*` (each `.*` part free of
newlines). -/
def dimPattern (s : String) : Prop :=
  ∃ p g1 g2 g3 g4 rest : List Char,
    s.data = p ++ '-' :: (g1 ++ 'x' :: (g2 ++ '-' :: (g3 ++ 'x' :: (g4 ++ '.' :: rest)))) ∧
    (∀ c ∈ p, dotMatch c = true) ∧ (∀ c ∈ g1, dotMatch c = true) ∧
    (∀ c ∈ g2, dotMatch c = true) ∧ (∀ c ∈ g3, dotMatch c = true) ∧
    (∀ c ∈ g4, dotMatch c = true)

theorem parseDims_some_iff (cs : List Char) :
    (∃ caps, parseDims cs = some caps) ↔
    (∃ p g1 g2 g3 g4 rest : List Char,
      cs = p ++ '-' :: (g1 ++ 'x' :: (g2 ++ '-' :: (g3 ++ 'x' :: (g4 ++ '.' :: rest)))) ∧
      (∀ c ∈ p, dotMatch c = true) ∧ (∀ c ∈ g1, dotMatch c = true) ∧
      (∀ c ∈ g2, dotMatch c = true) ∧ (∀ c ∈ g3, dotMatch c = true) ∧
      (∀ c ∈ g4, dotMatch c = true)) := by
  constructor
  · rintro ⟨caps, h⟩
    obtain ⟨p, r0, hpr, hpdot, hK0⟩ := starMatch_some_elim K0 cs caps h
    cases r0 with
    | nil => simp [K0] at hK0
    | cons a r1 =>
      by_cases ha : a = '-'
      case neg => simp [K0, ha] at hK0
      case pos =>
      subst ha
      rw [show K0 p ('-' :: r1) = starMatch K1 r1 from by simp [K0]] at hK0
      obtain ⟨g1, r2, h1, h1dot, hK1⟩ := starMatch_some_elim _ _ _ hK0
      cases r2 with
      | nil => simp [K1] at hK1
      | cons b r3 =>
        by_cases hb : b = 'x'
        case neg => simp [K1, hb] at hK1
        case pos =>
        subst hb
        rw [show K1 g1 ('x' :: r3) = starMatch (K2 g1) r3 from by simp [K1]] at hK1
        obtain ⟨g2, r4, h2, h2dot, hK2⟩ := starMatch_some_elim _ _ _ hK1
        cases r4 with
        | nil => simp [K2] at hK2
        | cons c r5 =>
          by_cases hc : c = '-'
          case neg => simp [K2, hc] at hK2
          case pos =>
          subst hc
          rw [show K2 g1 g2 ('-' :: r5) = starMatch (K3 g1 g2) r5 from by simp [K2]] at hK2
          obtain ⟨g3, r6, h3, h3dot, hK3⟩ := starMatch_some_elim _ _ _ hK2
          cases r6 with
          | nil => simp [K3] at hK3
          | cons d r7 =>
            by_cases hd : d = 'x'
            case neg => simp [K3, hd] at hK3
            case pos =>
            subst hd
            rw [show K3 g1 g2 g3 ('x' :: r7) = starMatch (K4 g1 g2 g3) r7 from by
              simp [K3]] at hK3
            obtain ⟨g4, r8, h4, h4dot, hK4⟩ := starMatch_some_elim _ _ _ hK3
            cases r8 with
            | nil => simp [K4] at hK4
            | cons e rest =>
              by_cases he : e = '.'
              case neg => simp [K4, he] at hK4
              case pos =>
              subst he
              refine ⟨p, g1, g2, g3, g4, rest, ?_, hpdot, h1dot, h2dot, h3dot, h4dot⟩
              rw [← hpr, ← h1, ← h2, ← h3, ← h4]
  · rintro ⟨p, g1, g2, g3, g4, rest, heq, hp, h1, h2, h3, h4⟩
    cases hcase : parseDims cs with
    | some caps => exact ⟨caps, rfl⟩
    | none =>
      exfalso
      have e0 := starMatch_none_elim K0 cs hcase p
        ('-' :: (g1 ++ 'x' :: (g2 ++ '-' :: (g3 ++ 'x' :: (g4 ++ '.' :: rest)))))
        heq.symm hp
      rw [show K0 p ('-' :: (g1 ++ 'x' :: (g2 ++ '-' :: (g3 ++ 'x' :: (g4 ++ '.' :: rest)))))
        = starMatch K1 (g1 ++ 'x' :: (g2 ++ '-' :: (g3 ++ 'x' :: (g4 ++ '.' :: rest)))) from by
        simp [K0]] at e0
      have e1 := starMatch_none_elim _ _ e0 g1
        ('x' :: (g2 ++ '-' :: (g3 ++ 'x' :: (g4 ++ '.' :: rest)))) rfl h1
      rw [show K1 g1 ('x' :: (g2 ++ '-' :: (g3 ++ 'x' :: (g4 ++ '.' :: rest))))
        = starMatch (K2 g1) (g2 ++ '-' :: (g3 ++ 'x' :: (g4 ++ '.' :: rest))) from by
        simp [K1]] at e1
      have e2 := starMatch_none_elim _ _ e1 g2
        ('-' :: (g3 ++ 'x' :: (g4 ++ '.' :: rest))) rfl h2
      rw [show K2 g1 g2 ('-' :: (g3 ++ 'x' :: (g4 ++ '.' :: rest)))
        = starMatch (K3 g1 g2) (g3 ++ 'x' :: (g4 ++ '.' :: rest)) from by simp [K2]] at e2
      have e3 := starMatch_none_elim _ _ e2 g3 ('x' :: (g4 ++ '.' :: rest)) rfl h3
      rw [show K3 g1 g2 g3 ('x' :: (g4 ++ '.' :: rest))
        = starMatch (K4 g1 g2 g3) (g4 ++ '.' :: rest) from by simp [K3]] at e3
      have e4 := starMatch_none_elim _ _ e3 g4 ('.' :: rest) rfl h4
      simp [K4] at e4

/-- Claim C8: the decoder fails (the source's match is `None`, so `m.group`
raises — the malformed-name failure kind, modelled as `none`) exactly on the
strings in which the canonical trailing dimension pattern is absent; on every
string in which the pattern is present it returns the four captured values
without error. -/
theorem parse_malformed_iff (s : String) :
    parse_dimensions_from_training_image_filename s = none ↔ ¬ dimPattern s := by
  have hiff := parseDims_some_iff s.data
  constructor
  · intro h hpat
    obtain ⟨caps, hcaps⟩ := hiff.mpr hpat
    unfold parse_dimensions_from_training_image_filename at h
    rw [hcaps] at h
    obtain ⟨a, b, c, d⟩ := caps
    simp at h
  · intro h
    cases hcase : parseDims s.data with
    | none =>
      unfold parse_dimensions_from_training_image_filename
      rw [hcase]
    | some caps =>
      exact absurd (hiff.mp ⟨caps, hcase⟩) h

/-- Witness for claim C1 at `s = 32`, dimensions `49920x108288 -> 1560x3384`. -/
theorem codec_roundtrip_witness :
    parse_dimensions_from_training_image_filename
        (get_training_image_path_cfg 32 5 49920 108288 1560 3384) =
      some (Nat.repr 49920, Nat.repr 108288, Nat.repr 1560, Nat.repr 3384) ∧
    get_training_image_path 5 49920 108288 1560 3384 =
      get_training_image_path_cfg SCALE_FACTOR 5 49920 108288 1560 3384 :=
  codec_roundtrip 32 5 49920 108288 1560 3384 (by norm_num) (by norm_num) (by norm_num)
    (by norm_num) (by norm_num)

/-! ### Binary64 semantics of the work partitioner

The exact-rational `multiprocess_tasks` above idealizes Python's float division.
CPython evaluates the partition formula in IEEE-754 binary64 arithmetic: every
operation computes the exact rational result and then rounds it to 53 significant
bits (round to nearest, ties to even).  `fl` is that rounding, expressed exactly
on rationals (valid on the normal range, which covers every value this module can
produce), and `multiprocess_tasks_float` is the partition computation with every
float operation of the source rounded by `fl`. -/

/-- Round a rational to the nearest IEEE-754 binary64 value (round to nearest,
ties to even), expressed exactly as a rational.  `Int.log 2 q` is the floor of
the base-2 logarithm, so `q * 2 ^ (52 - e)` is the significand scaled into
`[2^52, 2^53)`; `pyRound` is precisely round-half-to-even.  Exact for the normal
range; no value in this module approaches overflow or subnormals. -/
def fl (q : ℚ) : ℚ :=
  if q = 0 then 0
  else
    ((if q < 0 then -1 else 1) : ℚ) *
      ((pyRound (|q| * (2 : ℚ) ^ (52 - Int.log 2 |q|)) : ℤ) : ℚ) *
      (2 : ℚ) ^ (Int.log 2 |q| - 52)

/-- The task-range computation of `multiprocess_training_slides_to_images`
(slide.py:528-546) under faithful binary64 float semantics: `total / workers`,
each multiplication by the worker index, and the `+ 1` are each correctly rounded
by `fl` (the integer operands convert to binary64 exactly at these magnitudes),
and `int()` truncates toward zero. -/
def multiprocess_tasks_float (num_train_images workers : ℕ) : List (ℤ × ℤ) :=
  let num_processes := if workers > num_train_images then num_train_images else workers
  let images_per_process : ℚ := fl ((num_train_images : ℚ) / (num_processes : ℚ))
  (List.range num_processes).map fun k =>
    let num_process : ℕ := k + 1
    let start_index := pyInt (fl (fl (((num_process : ℚ) - 1) * images_per_process) + 1))
    let end_index := pyInt (fl ((num_process : ℚ) * images_per_process))
    (start_index, end_index)

theorem int_log_two_eq (q : ℚ) (z : ℤ) (h1 : (2 : ℚ) ^ z ≤ q) (h2 : q < (2 : ℚ) ^ (z + 1)) :
    Int.log 2 q = z := by
  have hq : 0 < q := lt_of_lt_of_le (by positivity) h1
  have hb : ((2 : ℕ) : ℚ) = (2 : ℚ) := by norm_num
  have hle : z ≤ Int.log 2 q := by
    rw [← Int.zpow_le_iff_le_log (by norm_num) hq, hb]
    exact h1
  have hlt : Int.log 2 q < z + 1 := by
    rw [← Int.lt_zpow_iff_log_lt (by norm_num) hq, hb]
    exact h2
  omega

theorem fl_eval (q : ℚ) (e : ℤ) (hq : 0 < q) (he : Int.log 2 q = e) :
    fl q = ((pyRound (q * (2 : ℚ) ^ (52 - e)) : ℤ) : ℚ) * (2 : ℚ) ^ (e - 52) := by
  rw [fl, if_neg hq.ne', if_neg (not_lt.mpr hq.le), abs_of_pos hq, he, one_mul]

theorem fl_zero : fl 0 = 0 := by
  rw [fl, if_pos rfl]

theorem multiprocess_tasks_float_eq (T W : ℕ) :
    multiprocess_tasks_float T W =
      (List.range (min W T)).map (fun (k : ℕ) =>
        (pyInt (fl (fl ((k : ℚ) * fl ((T : ℚ) / ((min W T : ℕ) : ℚ))) + 1)),
         pyInt (fl (((k : ℚ) + 1) * fl ((T : ℚ) / ((min W T : ℕ) : ℚ)))))) := by
  have hmin : (if W > T then T else W) = min W T := by
    split_ifs with h <;> omega
  simp only [multiprocess_tasks_float, hmin]
  refine List.map_congr_left ?_
  intro k _
  have e1 : ((k + 1 : ℕ) : ℚ) - 1 = (k : ℚ) := by push_cast; ring
  have e2 : ((k + 1 : ℕ) : ℚ) = (k : ℚ) + 1 := by push_cast; ring
  rw [e1, e2]

theorem multiprocess_tasks_float_61_7 :
    multiprocess_tasks_float 61 7 =
      [(1, 8), (9, 17), (18, 26), (27, 34), (35, 43), (44, 52), (53, 60)] := by
  have f1 : fl ((61 : ℚ) / 7) = ((4905706736957147 : ℚ) / 562949953421312) := by
    rw [fl_eval _ 3 (by norm_num) (int_log_two_eq _ 3 (by norm_num) (by norm_num))]
    norm_num [pyRound, Int.even_iff]
  have f2 : fl (1 : ℚ) = (1 : ℚ) := by
    rw [fl_eval _ 0 (by norm_num) (int_log_two_eq _ 0 (by norm_num) (by norm_num))]
    norm_num [pyRound, Int.even_iff]
  have f3 : fl ((4905706736957147 : ℚ) / 562949953421312) = ((4905706736957147 : ℚ) / 562949953421312) := by
    rw [fl_eval _ 3 (by norm_num) (int_log_two_eq _ 3 (by norm_num) (by norm_num))]
    norm_num [pyRound, Int.even_iff]
  have f4 : fl ((4905706736957147 : ℚ) / 281474976710656) = ((4905706736957147 : ℚ) / 281474976710656) := by
    rw [fl_eval _ 4 (by norm_num) (int_log_two_eq _ 4 (by norm_num) (by norm_num))]
    norm_num [pyRound, Int.even_iff]
  have f5 : fl ((5468656690378459 : ℚ) / 562949953421312) = ((5468656690378459 : ℚ) / 562949953421312) := by
    rw [fl_eval _ 3 (by norm_num) (int_log_two_eq _ 3 (by norm_num) (by norm_num))]
    norm_num [pyRound, Int.even_iff]
  have f6 : fl ((14717120210871441 : ℚ) / 562949953421312) = ((919820013179465 : ℚ) / 35184372088832) := by
    rw [fl_eval _ 4 (by norm_num) (int_log_two_eq _ 4 (by norm_num) (by norm_num))]
    norm_num [pyRound, Int.even_iff]
  have f7 : fl ((5187181713667803 : ℚ) / 281474976710656) = ((5187181713667803 : ℚ) / 281474976710656) := by
    rw [fl_eval _ 4 (by norm_num) (int_log_two_eq _ 4 (by norm_num) (by norm_num))]
    norm_num [pyRound, Int.even_iff]
  have f8 : fl ((4905706736957147 : ℚ) / 140737488355328) = ((4905706736957147 : ℚ) / 140737488355328) := by
    rw [fl_eval _ 5 (by norm_num) (int_log_two_eq _ 5 (by norm_num) (by norm_num))]
    norm_num [pyRound, Int.even_iff]
  have f9 : fl ((955004385268297 : ℚ) / 35184372088832) = ((955004385268297 : ℚ) / 35184372088832) := by
    rw [fl_eval _ 4 (by norm_num) (int_log_two_eq _ 4 (by norm_num) (by norm_num))]
    norm_num [pyRound, Int.even_iff]
  have f10 : fl ((24528533684785735 : ℚ) / 562949953421312) = ((3066066710598217 : ℚ) / 70368744177664) := by
    rw [fl_eval _ 5 (by norm_num) (int_log_two_eq _ 5 (by norm_num) (by norm_num))]
    norm_num [pyRound, Int.even_iff]
  have f11 : fl ((5046444225312475 : ℚ) / 140737488355328) = ((5046444225312475 : ℚ) / 140737488355328) := by
    rw [fl_eval _ 5 (by norm_num) (int_log_two_eq _ 5 (by norm_num) (by norm_num))]
    norm_num [pyRound, Int.even_iff]
  have f12 : fl ((14717120210871441 : ℚ) / 281474976710656) = ((919820013179465 : ℚ) / 17592186044416) := by
    rw [fl_eval _ 5 (by norm_num) (int_log_two_eq _ 5 (by norm_num) (by norm_num))]
    norm_num [pyRound, Int.even_iff]
  have f13 : fl ((3136435454775881 : ℚ) / 70368744177664) = ((3136435454775881 : ℚ) / 70368744177664) := by
    rw [fl_eval _ 5 (by norm_num) (int_log_two_eq _ 5 (by norm_num) (by norm_num))]
    norm_num [pyRound, Int.even_iff]
  have f14 : fl ((34339947158700029 : ℚ) / 562949953421312) = ((8584986789675007 : ℚ) / 140737488355328) := by
    rw [fl_eval _ 5 (by norm_num) (int_log_two_eq _ 5 (by norm_num) (by norm_num))]
    norm_num [pyRound, Int.even_iff]
  have f15 : fl ((937412199223881 : ℚ) / 17592186044416) = ((937412199223881 : ℚ) / 17592186044416) := by
    rw [fl_eval _ 5 (by norm_num) (int_log_two_eq _ 5 (by norm_num) (by norm_num))]
    norm_num [pyRound, Int.even_iff]
  have p16 : pyInt (1 : ℚ) = 1 := by
    rw [pyInt_eq_floor _ (by norm_num)]; norm_num
  have p17 : pyInt ((4905706736957147 : ℚ) / 562949953421312) = 8 := by
    rw [pyInt_eq_floor _ (by norm_num)]; norm_num
  have p18 : pyInt ((4905706736957147 : ℚ) / 281474976710656) = 17 := by
    rw [pyInt_eq_floor _ (by norm_num)]; norm_num
  have p19 : pyInt ((5468656690378459 : ℚ) / 562949953421312) = 9 := by
    rw [pyInt_eq_floor _ (by norm_num)]; norm_num
  have p20 : pyInt ((919820013179465 : ℚ) / 35184372088832) = 26 := by
    rw [pyInt_eq_floor _ (by norm_num)]; norm_num
  have p21 : pyInt ((5187181713667803 : ℚ) / 281474976710656) = 18 := by
    rw [pyInt_eq_floor _ (by norm_num)]; norm_num
  have p22 : pyInt ((4905706736957147 : ℚ) / 140737488355328) = 34 := by
    rw [pyInt_eq_floor _ (by norm_num)]; norm_num
  have p23 : pyInt ((955004385268297 : ℚ) / 35184372088832) = 27 := by
    rw [pyInt_eq_floor _ (by norm_num)]; norm_num
  have p24 : pyInt ((3066066710598217 : ℚ) / 70368744177664) = 43 := by
    rw [pyInt_eq_floor _ (by norm_num)]; norm_num
  have p25 : pyInt ((5046444225312475 : ℚ) / 140737488355328) = 35 := by
    rw [pyInt_eq_floor _ (by norm_num)]; norm_num
  have p26 : pyInt ((919820013179465 : ℚ) / 17592186044416) = 52 := by
    rw [pyInt_eq_floor _ (by norm_num)]; norm_num
  have p27 : pyInt ((3136435454775881 : ℚ) / 70368744177664) = 44 := by
    rw [pyInt_eq_floor _ (by norm_num)]; norm_num
  have p28 : pyInt ((8584986789675007 : ℚ) / 140737488355328) = 60 := by
    rw [pyInt_eq_floor _ (by norm_num)]; norm_num
  have p29 : pyInt ((937412199223881 : ℚ) / 17592186044416) = 53 := by
    rw [pyInt_eq_floor _ (by norm_num)]; norm_num
  rw [multiprocess_tasks_float_eq 61 7]
  rw [show (min 7 61 : ℕ) = 7 from by norm_num]
  rw [show List.range 7 = [0, 1, 2, 3, 4, 5, 6] from rfl]
  simp only [List.map_cons, List.map_nil]
  push_cast
  norm_num [fl_zero, f1, f2, f3, f4, f5, f6, f7, f8, f9, f10, f11, f12, f13, f14, f15, p16, p17, p18, p19, p20, p21, p22, p23, p24, p25, p26, p27, p28, p29]

theorem multiprocess_tasks_float_five_two :
    multiprocess_tasks_float 5 2 = [(1, 2), (3, 5)] := by
  have g1 : fl ((5 : ℚ) / 2) = ((5 : ℚ) / 2) := by
    rw [fl_eval _ 1 (by norm_num) (int_log_two_eq _ 1 (by norm_num) (by norm_num))]
    norm_num [pyRound, Int.even_iff]
  have g2 : fl (1 : ℚ) = (1 : ℚ) := by
    rw [fl_eval _ 0 (by norm_num) (int_log_two_eq _ 0 (by norm_num) (by norm_num))]
    norm_num [pyRound, Int.even_iff]
  have g3 : fl (5 : ℚ) = (5 : ℚ) := by
    rw [fl_eval _ 2 (by norm_num) (int_log_two_eq _ 2 (by norm_num) (by norm_num))]
    norm_num [pyRound, Int.even_iff]
  have g4 : fl ((7 : ℚ) / 2) = ((7 : ℚ) / 2) := by
    rw [fl_eval _ 1 (by norm_num) (int_log_two_eq _ 1 (by norm_num) (by norm_num))]
    norm_num [pyRound, Int.even_iff]
  have q5 : pyInt (1 : ℚ) = 1 := by
    rw [pyInt_eq_floor _ (by norm_num)]; norm_num
  have q6 : pyInt ((5 : ℚ) / 2) = 2 := by
    rw [pyInt_eq_floor _ (by norm_num)]; norm_num
  have q7 : pyInt (5 : ℚ) = 5 := by
    rw [pyInt_eq_floor _ (by norm_num)]; norm_num
  have q8 : pyInt ((7 : ℚ) / 2) = 3 := by
    rw [pyInt_eq_floor _ (by norm_num)]; norm_num
  rw [multiprocess_tasks_float_eq 5 2]
  rw [show (min 2 5 : ℕ) = 2 from by norm_num]
  rw [show List.range 2 = [0, 1] from rfl]
  simp only [List.map_cons, List.map_nil]
  push_cast
  norm_num [fl_zero, g1, g2, g3, g4, q5, q6, q7, q8]

/-- Claim C2: refuted on the program's real (binary64) arithmetic.  At
`total = 61`, `workers = 7` — inside the claimed range `1 ≤ total ≤ 1000`,
`1 ≤ workers ≤ 64` — the float plan is
`[(1,8),(9,17),(18,26),(27,34),(35,43),(44,52),(53,60)]`: `61 * fl(61/7)`
rounds just below `61`, so `int()` truncates the last end index to `60` and
slide `61` is covered by no range. -/
theorem multiprocess_tasks_float_uncovered :
    (1 : ℕ) ≤ 61 ∧ 61 ≤ 1000 ∧ (1 : ℕ) ≤ 7 ∧ 7 ≤ 64 ∧
    ¬ ∃ r ∈ multiprocess_tasks_float 61 7, r.1 ≤ (61 : ℤ) ∧ (61 : ℤ) ≤ r.2 := by
  refine ⟨by norm_num, by norm_num, by norm_num, by norm_num, ?_⟩
  rw [multiprocess_tasks_float_61_7]
  rintro ⟨r, hr, h1, h2⟩
  fin_cases hr <;> omega
